import Mathlib

/-!
# A verification of `ordered_set.py` (OrderedSet, version 2.0.1)

Shallow embedding of the `OrderedSet` class: an insertion-ordered collection of
unique elements backed by two co-indexed views, the list `items` (the stored
sequence) and the dict `map` (element → index).  The Python dict is modelled as
an association list `List (α × Nat)`; `dlookup`, `dictErase` model `d[k]` /
`k in d` and `del d[k]`.  Elements come from an arbitrary type with decidable
equality (Python values with `__eq__`/`__hash__`).
-/

set_option autoImplicit false
set_option linter.unusedSectionVars false

namespace OrdSet

variable {α : Type} [DecidableEq α]

/-- Python dict lookup `d.get(k)`: the value of the first entry whose key is `k`. -/
def dlookup (m : List (α × Nat)) (k : α) : Option Nat :=
  match m with
  | [] => none
  | (k', v) :: rest => if k' = k then some v else dlookup rest k

/-- Python `del d[k]`: drop the entry whose key is `k` (dict keys are unique). -/
def dictErase (m : List (α × Nat)) (k : α) : List (α × Nat) :=
  match m with
  | [] => []
  | (k', v) :: rest => if k' = k then rest else (k', v) :: dictErase rest k

/-- Python `x in l` membership test on a plain collection of elements. -/
def pymem (l : List α) (x : α) : Bool :=
  decide (x ∈ l)

/-- The state of an `OrderedSet`: the list `self.items` and the dict `self.map`. -/
structure OrderedSet (α : Type) where
  items : List α
  map : List (α × Nat)
deriving DecidableEq, Repr

namespace OrderedSet

/-- Source `__contains__`: `key in self.map`. -/
def contains (s : OrderedSet α) (key : α) : Bool :=
  (dlookup s.map key).isSome

/-- Source `__len__`: `len(self.items)`. -/
def size (s : OrderedSet α) : Nat :=
  s.items.length

/-- Source `add(key)`: if `key not in self.map`, record `self.map[key] = len(self.items)`
and append `key` to `self.items`; return `self.map[key]`. -/
def add (s : OrderedSet α) (key : α) : Nat × OrderedSet α :=
  match dlookup s.map key with
  | some i => (i, s)
  | none =>
      (s.items.length, ⟨s.items ++ [key], s.map ++ [(key, s.items.length)]⟩)

/-- Source `update(sequence)`: `add` each item in order; return the index of the last
item inserted (`None` when the sequence is empty). -/
def update (s : OrderedSet α) (sequence : List α) : Option Nat × OrderedSet α :=
  sequence.foldl (fun acc item => (some (add acc.2 item).1, (add acc.2 item).2))
    ((none : Option Nat), s)

/-- Source `__init__(iterable)`: start from empty `items`/`map` and `|=` the iterable,
which `add`s each element in order (the `MutableSet.__ior__` mixin). -/
def fromList (l : List α) : OrderedSet α :=
  l.foldl (fun t x => (add t x).2) ⟨[], []⟩

/-- Source `pop()`: raise `KeyError` (modelled as `none`) if `self.items` is empty;
otherwise remove the last slot of `items` and the popped element's dict entry. -/
def pop (s : OrderedSet α) : Option (α × OrderedSet α) :=
  match s.items.getLast? with
  | none => none
  | some elem => some (elem, ⟨s.items.dropLast, dictErase s.map elem⟩)

/-- Source `discard(key)`: if present at index `i`, delete `self.items[i]` and
`self.map[key]`, then decrement every remaining dict value `v` with `v >= i`. -/
def discard (s : OrderedSet α) (key : α) : OrderedSet α :=
  match dlookup s.map key with
  | none => s
  | some i =>
      ⟨s.items.eraseIdx i,
       (dictErase s.map key).map (fun p => (p.1, if i ≤ p.2 then p.2 - 1 else p.2))⟩

/-- Modelled from the spec: `remove` comes from the host's `MutableSet` mixin
(not in `src/`) — like `discard` but fails with a key-not-found error (`none`)
when the key is absent. -/
def remove (s : OrderedSet α) (key : α) : Option (OrderedSet α) :=
  if contains s key then some (discard s key) else none

/-- Source `clear()`: empty both views. -/
def clear (_s : OrderedSet α) : OrderedSet α :=
  ⟨[], []⟩

/-- Source `union(*sets)`: build a new set from the concatenation of `self`'s items and
each other source's elements in argument order (`cls(chain.from_iterable(...))`). -/
def union (s : OrderedSet α) (sets : List (List α)) : OrderedSet α :=
  fromList (s.items ++ sets.flatten)

/-- Source `difference(*sets)`: `other = set.intersection(*map(set, sets))`, then keep
the items of `self` that are not in `other`.  (Membership in the intersection of
the non-empty family `sets` is `∀ o ∈ sets, item ∈ o`; with zero arguments the
Python call raises `TypeError`, so this model is used only with `sets ≠ []`.) -/
def difference (s : OrderedSet α) (sets : List (List α)) : OrderedSet α :=
  fromList (s.items.filter (fun item => !(sets.all (fun o => pymem o item))))

/-- The spec's description of `difference`, for comparison: compute the unordered
union of all the others' elements, then keep the items of `self` not in it. -/
def differenceSpec (s : OrderedSet α) (sets : List (List α)) : OrderedSet α :=
  fromList (s.items.filter (fun item => !(sets.any (fun o => pymem o item))))

/-- Source `symmetric_difference(other)`: `cls(self).difference(other)` unioned with
`cls(other).difference(self)`. -/
def symmetric_difference (s other : OrderedSet α) : OrderedSet α :=
  let diff1 := difference (fromList s.items) [other.items]
  let diff2 := difference (fromList other.items) [s.items]
  union diff1 [diff2.items]

/-- Source `difference_update(*sets)`: `discard` every element of `chain.from_iterable(sets)`. -/
def difference_update (s : OrderedSet α) (sets : List (List α)) : OrderedSet α :=
  sets.flatten.foldl discard s

/-- Source `intersection_update(other)`: collect `to_remove`, the items of `self` not in
`other`, then `discard` each of them. -/
def intersection_update (s other : OrderedSet α) : OrderedSet α :=
  (s.items.filter (fun item => !(contains other item))).foldl discard s

/-- Source `symmetric_difference_update(other)`: `diff2 = cls(other).difference(self)`,
then `self.difference_update(other)`, then `self.update(diff2)`. -/
def symmetric_difference_update (s other : OrderedSet α) : OrderedSet α :=
  let diff2 := difference (fromList other.items) [s.items]
  let s1 := difference_update s [other.items]
  (update s1 diff2.items).2

/-- The possible arguments of `__eq__`: another `OrderedSet`; a collection that
`set(...)` converts to these elements; or a value on which `set(...)` raises
`TypeError`. -/
inductive EqOther (α : Type) where
  | oset (o : OrderedSet α)
  | iterable (l : List α)
  | nonIterable
deriving DecidableEq, Repr

/-- Source `set(a) == set(b)`: the two collections have the same elements. -/
def seteq (a b : List α) : Bool :=
  a.all (fun x => pymem b x) && b.all (fun x => pymem a x)

/-- Source `__eq__(other)`: another `OrderedSet` compares by length and order-sensitive
item equality; any other collection compares as unordered sets; a value that
`set(...)` cannot convert compares unequal. -/
def pyEq (s : OrderedSet α) (other : EqOther α) : Bool :=
  match other with
  | .oset o => decide (s.items.length = o.items.length) && decide (s.items = o.items)
  | .iterable l => seteq s.items l
  | .nonIterable => false

/-- The pickled state: `__getstate__` returns either `(None,)` (the marker for
the empty set, which must be truthy) or `list(self)`. -/
inductive PyState (α : Type) where
  | emptyMarker
  | elems (l : List α)
deriving DecidableEq, Repr

/-- Source `__getstate__`. -/
def getstate (s : OrderedSet α) : PyState α :=
  if s.items.length = 0 then .emptyMarker else .elems s.items

/-- Source `__setstate__`: `__init__([])` on the marker, else `__init__(state)`. -/
def setstate (st : PyState α) : OrderedSet α :=
  match st with
  | .emptyMarker => fromList []
  | .elems l => fromList l

/-- Source `sequence.index_of(e)` / `list.index(e)`: index of the first occurrence. -/
def seqIndexOf : List α → α → Nat
  | [], _ => 0
  | a :: t, e => if a = e then 0 else seqIndexOf t e + 1

/-- The element/index pairs of a list, with indices starting at `n`. -/
def withIdx : List α → Nat → List (α × Nat)
  | [], _ => []
  | a :: t, n => (a, n) :: withIdx t (n + 1)

/-- The representation invariant of `OrderedSet`: the dict `map` consists of
exactly the element/index pairs of `items` (Python dicts keep insertion order
and unique keys), and `items` holds no duplicates. -/
def Wf (s : OrderedSet α) : Prop :=
  s.map = withIdx s.items 0 ∧ s.items.Nodup

instance (s : OrderedSet α) : Decidable (Wf s) :=
  inferInstanceAs (Decidable (_ ∧ _))

/-- The spec invariant of claim C1: every stored element's dict entry is its
index in the sequence, the dict keys are exactly the sequence's elements, and
the sequence holds no duplicates. -/
def Inv (s : OrderedSet α) : Prop :=
  (∀ e ∈ s.items, dlookup s.map e = some (seqIndexOf s.items e)) ∧
  (∀ k, k ∈ s.map.map Prod.fst ↔ k ∈ s.items) ∧
  s.items.Nodup

/-- The public mutating operations quantified over by claim C1. -/
inductive Op (α : Type) where
  | add (key : α)
  | update (sequence : List α)
  | discard (key : α)
  | remove (key : α)
  | pop
  | clear
  | difference_update (sets : List (List α))
  | intersection_update (other : OrderedSet α)
  | symmetric_difference_update (other : OrderedSet α)

/-- Apply one public operation; a failing `remove` or `pop` raises before any
mutation, leaving the state unchanged. -/
def applyOp (s : OrderedSet α) : Op α → OrderedSet α
  | .add k => (add s k).2
  | .update l => (update s l).2
  | .discard k => discard s k
  | .remove k =>
      match remove s k with
      | none => s
      | some s' => s'
  | .pop =>
      match pop s with
      | none => s
      | some r => r.2
  | .clear => clear s
  | .difference_update ls => difference_update s ls
  | .intersection_update o => intersection_update s o
  | .symmetric_difference_update o => symmetric_difference_update s o

/-- Construct a set from `init`, then apply the operations in order. -/
def run (init : List α) (ops : List (Op α)) : OrderedSet α :=
  ops.foldl applyOp (fromList init)

/-- The elements of a list in order of first appearance, skipping the ones in
`seen`: the spec's "deduplicate, first occurrence wins" order. -/
def keepFirstAux : List α → List α → List α
  | _, [] => []
  | seen, a :: t =>
      if a ∈ seen then keepFirstAux seen t else a :: keepFirstAux (seen ++ [a]) t

/-- The elements of a list in order of first appearance, later duplicates
dropped (the spec's description of construction and `union` order). -/
def keepFirst (l : List α) : List α :=
  keepFirstAux [] l

theorem withIdx_append (l1 l2 : List α) (n : Nat) :
    withIdx (l1 ++ l2) n = withIdx l1 n ++ withIdx l2 (n + l1.length) := by
  induction l1 generalizing n with
  | nil => rfl
  | cons a t ih =>
      show (a, n) :: withIdx (t ++ l2) (n + 1)
        = ((a, n) :: withIdx t (n + 1)) ++ withIdx l2 (n + (t.length + 1))
      rw [List.cons_append, ih]
      have h : n + 1 + t.length = n + (t.length + 1) := by omega
      rw [h]

theorem map_fst_withIdx (l : List α) (n : Nat) : (withIdx l n).map Prod.fst = l := by
  induction l generalizing n with
  | nil => rfl
  | cons a t ih => simp [withIdx, ih]

theorem dlookup_append_of_none (m1 m2 : List (α × Nat)) (k : α)
    (h : dlookup m1 k = none) : dlookup (m1 ++ m2) k = dlookup m2 k := by
  induction m1 with
  | nil => rfl
  | cons p t ih =>
      obtain ⟨k', v⟩ := p
      by_cases hk : k' = k
      · rw [dlookup, if_pos hk] at h; cases h
      · rw [dlookup, if_neg hk] at h
        rw [List.cons_append, dlookup, if_neg hk]
        exact ih h

theorem dlookup_append_of_some (m1 m2 : List (α × Nat)) (k : α) (v : Nat)
    (h : dlookup m1 k = some v) : dlookup (m1 ++ m2) k = some v := by
  induction m1 with
  | nil => cases h
  | cons p t ih =>
      obtain ⟨k', w⟩ := p
      by_cases hk : k' = k
      · rw [dlookup, if_pos hk] at h
        rw [List.cons_append, dlookup, if_pos hk]
        exact h
      · rw [dlookup, if_neg hk] at h
        rw [List.cons_append, dlookup, if_neg hk]
        exact ih h

theorem dlookup_withIdx_of_not_mem (l : List α) (n : Nat) (e : α) (h : e ∉ l) :
    dlookup (withIdx l n) e = none := by
  induction l generalizing n with
  | nil => rfl
  | cons a t ih =>
      have hae : a ≠ e := fun hh => h (List.mem_cons.mpr (Or.inl hh.symm))
      rw [withIdx, dlookup, if_neg hae]
      exact ih (n + 1) (fun het => h (List.mem_cons_of_mem a het))

theorem dlookup_withIdx_of_mem (l : List α) (n : Nat) (e : α) (h : e ∈ l) :
    dlookup (withIdx l n) e = some (n + seqIndexOf l e) := by
  induction l generalizing n with
  | nil => cases h
  | cons a t ih =>
      by_cases hae : a = e
      · rw [withIdx, dlookup, if_pos hae, seqIndexOf, if_pos hae, Nat.add_zero]
      · have het : e ∈ t := by
          rcases List.mem_cons.mp h with h1 | h2
          · exact absurd h1.symm hae
          · exact h2
        rw [withIdx, dlookup, if_neg hae, seqIndexOf, if_neg hae, ih (n + 1) het]
        have harith : n + 1 + seqIndexOf t e = n + (seqIndexOf t e + 1) := by omega
        rw [harith]

theorem seqIndexOf_decomp (l : List α) (e : α) (h : e ∈ l) :
    ∃ l1 l2, l = l1 ++ e :: l2 ∧ l1.length = seqIndexOf l e ∧ e ∉ l1 := by
  induction l with
  | nil => cases h
  | cons a t ih =>
      by_cases hae : a = e
      · exact ⟨[], t, by rw [hae]; rfl, by rw [seqIndexOf, if_pos hae]; rfl,
          List.not_mem_nil e⟩
      · have het : e ∈ t := by
          rcases List.mem_cons.mp h with h1 | h2
          · exact absurd h1.symm hae
          · exact h2
        obtain ⟨l1, l2, h1, h2, h3⟩ := ih het
        refine ⟨a :: l1, l2, by rw [List.cons_append, h1], ?_, ?_⟩
        · rw [List.length_cons, seqIndexOf, if_neg hae, h2]
        · intro hmem
          rcases List.mem_cons.mp hmem with h4 | h5
          · exact hae h4.symm
          · exact h3 h5

theorem dictErase_cons_self (m : List (α × Nat)) (k : α) (v : Nat) :
    dictErase ((k, v) :: m) k = m := by
  rw [dictErase, if_pos rfl]

theorem dictErase_append_of_not_mem (m1 m2 : List (α × Nat)) (k : α)
    (h : k ∉ m1.map Prod.fst) : dictErase (m1 ++ m2) k = m1 ++ dictErase m2 k := by
  induction m1 with
  | nil => rfl
  | cons p t ih =>
      obtain ⟨k', v⟩ := p
      simp only [List.map_cons, List.mem_cons, not_or] at h
      rw [List.cons_append, dictErase, if_neg (fun hk => h.1 hk.symm), ih h.2,
        List.cons_append]

theorem dlookup_dictErase_ne (m : List (α × Nat)) (k e : α) (h : e ≠ k) :
    dlookup (dictErase m k) e = dlookup m e := by
  induction m with
  | nil => rfl
  | cons p t ih =>
      obtain ⟨k', v⟩ := p
      by_cases h1 : k' = k
      · rw [dictErase, if_pos h1, dlookup, if_neg (fun h2 => h (h2.symm.trans h1))]
      · by_cases h2 : k' = e
        · rw [dictErase, if_neg h1, dlookup, if_pos h2, dlookup, if_pos h2]
        · rw [dictErase, if_neg h1, dlookup, if_neg h2, dlookup, if_neg h2, ih]

theorem dlookup_map_value (m : List (α × Nat)) (g : Nat → Nat) (k : α) :
    dlookup (m.map (fun p => (p.1, g p.2))) k = (dlookup m k).map g := by
  induction m with
  | nil => rfl
  | cons p t ih =>
      obtain ⟨k', v⟩ := p
      by_cases h : k' = k
      · rw [List.map_cons, dlookup, dlookup, if_pos h, if_pos h, Option.map_some']
      · rw [List.map_cons, dlookup, dlookup, if_neg h, if_neg h, ih]

theorem withIdx_map_dec_of_le (i : Nat) (l : List α) (n : Nat) (h : n + l.length ≤ i) :
    (withIdx l n).map (fun p => (p.1, if i ≤ p.2 then p.2 - 1 else p.2)) = withIdx l n := by
  induction l generalizing n with
  | nil => rfl
  | cons a t ih =>
      simp only [List.length_cons] at h
      simp only [withIdx, List.map_cons]
      rw [if_neg (by omega : ¬ i ≤ n), ih (n + 1) (by omega)]

theorem withIdx_map_dec_of_ge (i : Nat) (l : List α) (n : Nat) (h : i ≤ n) (h1 : 1 ≤ n) :
    (withIdx l n).map (fun p => (p.1, if i ≤ p.2 then p.2 - 1 else p.2))
      = withIdx l (n - 1) := by
  induction l generalizing n with
  | nil => rfl
  | cons a t ih =>
      simp only [withIdx, List.map_cons]
      rw [if_pos h, ih (n + 1) (by omega) (by omega)]
      have h2 : n + 1 - 1 = n - 1 + 1 := by omega
      rw [h2]

theorem eraseIdx_append_cons (l1 l2 : List α) (e : α) :
    (l1 ++ e :: l2).eraseIdx l1.length = l1 ++ l2 := by
  induction l1 with
  | nil => rfl
  | cons a t ih =>
      show a :: (t ++ e :: l2).eraseIdx t.length = a :: (t ++ l2)
      rw [ih]

theorem filter_ne_of_not_mem (l : List α) (e : α) (h : e ∉ l) :
    l.filter (fun x => decide (x ≠ e)) = l := by
  induction l with
  | nil => rfl
  | cons a t ih =>
      have hae : a ≠ e := fun hh => h (List.mem_cons.mpr (Or.inl hh.symm))
      rw [List.filter_cons_of_pos (by simpa using hae),
        ih (fun het => h (List.mem_cons_of_mem a het))]

theorem wf_empty : Wf (⟨[], []⟩ : OrderedSet α) :=
  ⟨rfl, List.nodup_nil⟩

theorem inv_of_wf (s : OrderedSet α) (h : Wf s) : Inv s := by
  refine ⟨?_, ?_, h.2⟩
  · intro e he
    rw [h.1, dlookup_withIdx_of_mem _ _ _ he, Nat.zero_add]
  · intro k
    rw [h.1, map_fst_withIdx]

theorem contains_iff_mem (s : OrderedSet α) (h : Wf s) (k : α) :
    contains s k = true ↔ k ∈ s.items := by
  unfold contains
  by_cases hk : k ∈ s.items
  · rw [h.1, dlookup_withIdx_of_mem _ _ _ hk]
    simp [hk]
  · rw [h.1, dlookup_withIdx_of_not_mem _ _ _ hk]
    simp [hk]

theorem add_eq_of_lookup_some (s : OrderedSet α) (k : α) (i : Nat)
    (h : dlookup s.map k = some i) : add s k = (i, s) := by
  unfold add
  rw [h]

theorem add_eq_of_lookup_none (s : OrderedSet α) (k : α)
    (h : dlookup s.map k = none) :
    add s k = (s.items.length, ⟨s.items ++ [k], s.map ++ [(k, s.items.length)]⟩) := by
  unfold add
  rw [h]

theorem add_of_mem (s : OrderedSet α) (h : Wf s) (k : α) (hk : k ∈ s.items) :
    add s k = (seqIndexOf s.items k, s) := by
  rw [add_eq_of_lookup_some s k (seqIndexOf s.items k)]
  rw [h.1, dlookup_withIdx_of_mem _ _ _ hk, Nat.zero_add]

theorem add_of_not_mem (s : OrderedSet α) (h : Wf s) (k : α) (hk : k ∉ s.items) :
    add s k = (s.items.length, ⟨s.items ++ [k], s.map ++ [(k, s.items.length)]⟩) := by
  rw [add_eq_of_lookup_none s k]
  rw [h.1, dlookup_withIdx_of_not_mem _ _ _ hk]

theorem wf_add (s : OrderedSet α) (h : Wf s) (k : α) : Wf (add s k).2 := by
  by_cases hk : k ∈ s.items
  · rw [add_of_mem s h k hk]
    exact h
  · rw [add_of_not_mem s h k hk]
    constructor
    · show s.map ++ [(k, s.items.length)] = withIdx (s.items ++ [k]) 0
      rw [h.1, withIdx_append, Nat.zero_add]
      rfl
    · show (s.items ++ [k]).Nodup
      rw [List.nodup_append]
      exact ⟨h.2, List.nodup_singleton k,
        fun a ha hk' => hk ((List.mem_singleton.mp hk') ▸ ha)⟩

theorem addAll_spec (l : List α) (s : OrderedSet α) (h : Wf s) :
    Wf (l.foldl (fun t x => (add t x).2) s) ∧
    (l.foldl (fun t x => (add t x).2) s).items = s.items ++ keepFirstAux s.items l := by
  induction l generalizing s with
  | nil => exact ⟨h, by rw [keepFirstAux, List.append_nil]; rfl⟩
  | cons x t ih =>
      rw [List.foldl_cons]
      by_cases hx : x ∈ s.items
      · rw [add_of_mem s h x hx]
        obtain ⟨ih1, ih2⟩ := ih s h
        exact ⟨ih1, by rw [ih2, keepFirstAux, if_pos hx]⟩
      · rw [add_of_not_mem s h x hx]
        have hwf : Wf (⟨s.items ++ [x], s.map ++ [(x, s.items.length)]⟩ : OrderedSet α) := by
          have := wf_add s h x
          rwa [add_of_not_mem s h x hx] at this
        obtain ⟨ih1, ih2⟩ := ih _ hwf
        refine ⟨ih1, ?_⟩
        rw [ih2, keepFirstAux, if_neg hx]
        show (s.items ++ [x]) ++ keepFirstAux (s.items ++ [x]) t
          = s.items ++ x :: keepFirstAux (s.items ++ [x]) t
        rw [List.append_assoc, List.singleton_append]

theorem wf_fromList (l : List α) : Wf (fromList l) :=
  (addAll_spec l ⟨[], []⟩ wf_empty).1

theorem fromList_items (l : List α) : (fromList l).items = keepFirst l := by
  have h := (addAll_spec l ⟨[], []⟩ wf_empty).2
  rw [fromList, keepFirst]
  exact h.trans (List.nil_append _)

theorem keepFirstAux_eq_self (l seen : List α) (hn : l.Nodup)
    (hd : ∀ x ∈ l, x ∉ seen) : keepFirstAux seen l = l := by
  induction l generalizing seen with
  | nil => rfl
  | cons a t ih =>
      obtain ⟨ha, ht⟩ := List.nodup_cons.mp hn
      rw [keepFirstAux, if_neg (hd a (List.mem_cons_self a t)), ih (seen ++ [a]) ht]
      intro x hx hmem
      rcases List.mem_append.mp hmem with h1 | h2
      · exact hd x (List.mem_cons_of_mem a hx) h1
      · exact ha ((List.mem_singleton.mp h2) ▸ hx)

theorem keepFirst_eq_self (l : List α) (hn : l.Nodup) : keepFirst l = l :=
  keepFirstAux_eq_self l [] hn (fun x _ => List.not_mem_nil x)

theorem fromList_of_nodup (l : List α) (hn : l.Nodup) :
    fromList l = ⟨l, withIdx l 0⟩ := by
  have h1 := wf_fromList l
  have h2 := fromList_items l
  rw [keepFirst_eq_self l hn] at h2
  obtain ⟨hm, -⟩ := h1
  cases hfl : fromList l with
  | mk items map =>
      rw [hfl] at h2 hm
      simp only at h2 hm
      rw [h2] at hm
      rw [h2, hm]

theorem fromList_eq_self (s : OrderedSet α) (h : Wf s) : fromList s.items = s := by
  rw [fromList_of_nodup s.items h.2, ← h.1]

theorem discard_eq_of_lookup_some (s : OrderedSet α) (k : α) (i : Nat)
    (h : dlookup s.map k = some i) :
    discard s k = ⟨s.items.eraseIdx i,
      (dictErase s.map k).map (fun p => (p.1, if i ≤ p.2 then p.2 - 1 else p.2))⟩ := by
  unfold discard
  rw [h]

theorem discard_of_not_mem (s : OrderedSet α) (h : Wf s) (k : α) (hk : k ∉ s.items) :
    discard s k = s := by
  unfold discard
  rw [h.1, dlookup_withIdx_of_not_mem _ _ _ hk]

theorem discard_of_mem (s : OrderedSet α) (h : Wf s) (k : α) (hk : k ∈ s.items) :
    discard s k = ⟨s.items.eraseIdx (seqIndexOf s.items k),
      withIdx (s.items.eraseIdx (seqIndexOf s.items k)) 0⟩ := by
  obtain ⟨l1, l2, hdec, hlen, hl1⟩ := seqIndexOf_decomp s.items k hk
  have hlook : dlookup s.map k = some (seqIndexOf s.items k) := by
    rw [h.1, dlookup_withIdx_of_mem _ _ _ hk, Nat.zero_add]
  rw [discard_eq_of_lookup_some s k _ hlook]
  have hl2 : k ∉ l2 := by
    have hnd := h.2
    rw [hdec] at hnd
    have := List.Nodup.sublist (List.sublist_append_right l1 (k :: l2)) hnd
    exact (List.nodup_cons.mp this).1
  have herase : s.items.eraseIdx (seqIndexOf s.items k) = l1 ++ l2 := by
    rw [← hlen, hdec, eraseIdx_append_cons]
  rw [herase]
  have hmap : s.map = withIdx l1 0 ++ (k, l1.length) :: withIdx l2 (l1.length + 1) := by
    rw [h.1, hdec, withIdx_append, Nat.zero_add, withIdx]
  have herase2 : dictErase s.map k = withIdx l1 0 ++ withIdx l2 (l1.length + 1) := by
    rw [hmap, dictErase_append_of_not_mem _ _ _ (by rw [map_fst_withIdx]; exact hl1),
      dictErase_cons_self]
  rw [herase2, List.map_append, ← hlen,
    withIdx_map_dec_of_le l1.length l1 0 (by omega),
    withIdx_map_dec_of_ge l1.length l2 (l1.length + 1) (by omega) (by omega),
    Nat.add_sub_cancel, withIdx_append, Nat.zero_add]

theorem eraseIdx_seqIndexOf_eq_filter (l : List α) (e : α) (hn : l.Nodup) (he : e ∈ l) :
    l.eraseIdx (seqIndexOf l e) = l.filter (fun x => decide (x ≠ e)) := by
  obtain ⟨l1, l2, hdec, hlen, hl1⟩ := seqIndexOf_decomp l e he
  have hl2 : e ∉ l2 := by
    rw [hdec] at hn
    have := List.Nodup.sublist (List.sublist_append_right l1 (e :: l2)) hn
    exact (List.nodup_cons.mp this).1
  rw [← hlen, hdec, eraseIdx_append_cons, List.filter_append, filter_ne_of_not_mem _ _ hl1,
    List.filter_cons_of_neg (by simp), filter_ne_of_not_mem _ _ hl2]

theorem discard_items (s : OrderedSet α) (h : Wf s) (k : α) :
    (discard s k).items = s.items.filter (fun x => decide (x ≠ k)) := by
  by_cases hk : k ∈ s.items
  · rw [discard_of_mem s h k hk, eraseIdx_seqIndexOf_eq_filter s.items k h.2 hk]
  · rw [discard_of_not_mem s h k hk, filter_ne_of_not_mem _ _ hk]

theorem wf_discard (s : OrderedSet α) (h : Wf s) (k : α) : Wf (discard s k) := by
  by_cases hk : k ∈ s.items
  · rw [discard_of_mem s h k hk]
    exact ⟨rfl, by
      rw [eraseIdx_seqIndexOf_eq_filter s.items k h.2 hk]
      exact List.Nodup.filter _ h.2⟩
  · rw [discard_of_not_mem s h k hk]
    exact h

theorem discardAll_spec (B : List α) (s : OrderedSet α) (h : Wf s) :
    Wf (B.foldl discard s) ∧
    (B.foldl discard s).items = s.items.filter (fun x => decide (x ∉ B)) := by
  induction B generalizing s with
  | nil =>
      refine ⟨h, ?_⟩
      rw [List.foldl_nil]
      have : ∀ x ∈ s.items, decide (x ∉ ([] : List α)) = true := by
        intro x _
        simp
      exact (List.filter_eq_self.mpr this).symm
  | cons b t ih =>
      rw [List.foldl_cons]
      obtain ⟨ih1, ih2⟩ := ih (discard s b) (wf_discard s h b)
      refine ⟨ih1, ?_⟩
      rw [ih2, discard_items s h b, List.filter_filter]
      apply List.filter_congr
      intro x _
      by_cases h1 : x = b <;> by_cases h2 : x ∈ t <;> simp [h1, h2]

theorem pop_concat (s : OrderedSet α) (h : Wf s) (l' : List α) (a : α)
    (hitems : s.items = l' ++ [a]) :
    pop s = some (a, ⟨l', withIdx l' 0⟩) := by
  have hna : a ∉ l' := by
    have hnd := h.2
    rw [hitems, List.nodup_append] at hnd
    exact fun hmem => hnd.2.2 hmem (by simp)
  have hstep : pop s = some (a, ⟨l', dictErase s.map a⟩) := by
    unfold pop
    rw [hitems, List.getLast?_concat, List.dropLast_concat]
  rw [hstep]
  have hmap : s.map = withIdx l' 0 ++ [(a, l'.length)] := by
    rw [h.1, hitems, withIdx_append, Nat.zero_add, withIdx]
    rfl
  rw [hmap, dictErase_append_of_not_mem _ _ _ (by rw [map_fst_withIdx]; exact hna),
    dictErase_cons_self, List.append_nil]

theorem wf_pop (s : OrderedSet α) (h : Wf s) (x : α) (s' : OrderedSet α)
    (hp : pop s = some (x, s')) : Wf s' := by
  rcases List.eq_nil_or_concat s.items with hnil | ⟨l', a, hconc⟩
  · unfold pop at hp
    rw [hnil] at hp
    cases hp
  · rw [List.concat_eq_append] at hconc
    rw [pop_concat s h l' a hconc] at hp
    have hnd := h.2
    rw [hconc, List.nodup_append] at hnd
    have h2 : (a, (⟨l', withIdx l' 0⟩ : OrderedSet α)) = (x, s') := Option.some.inj hp
    have hs' : s' = ⟨l', withIdx l' 0⟩ := (congrArg Prod.snd h2).symm
    rw [hs']
    exact ⟨rfl, hnd.1⟩

theorem update_snd (s : OrderedSet α) (l : List α) :
    (update s l).2 = l.foldl (fun t x => (add t x).2) s := by
  unfold update
  suffices hgen : ∀ (o : Option Nat) (s : OrderedSet α),
      (l.foldl (fun acc item => (some (add acc.2 item).1, (add acc.2 item).2)) (o, s)).2
        = l.foldl (fun t x => (add t x).2) s from hgen none s
  induction l with
  | nil => intro o s; rfl
  | cons x t ih =>
      intro o s
      rw [List.foldl_cons, List.foldl_cons]
      exact ih (some (add s x).1) (add s x).2

theorem wf_update (s : OrderedSet α) (h : Wf s) (l : List α) : Wf (update s l).2 := by
  rw [update_snd]
  exact (addAll_spec l s h).1

theorem wf_difference_update (s : OrderedSet α) (h : Wf s) (ls : List (List α)) :
    Wf (difference_update s ls) :=
  (discardAll_spec ls.flatten s h).1

theorem wf_intersection_update (s other : OrderedSet α) (h : Wf s) :
    Wf (intersection_update s other) :=
  (discardAll_spec _ s h).1

theorem wf_symmetric_difference_update (s other : OrderedSet α) (h : Wf s) :
    Wf (symmetric_difference_update s other) := by
  unfold symmetric_difference_update
  exact wf_update _ (wf_difference_update s h _) _

theorem wf_applyOp (s : OrderedSet α) (h : Wf s) (op : Op α) : Wf (applyOp s op) := by
  cases op with
  | add k => exact wf_add s h k
  | update l => exact wf_update s h l
  | discard k => exact wf_discard s h k
  | remove k =>
      show Wf (match remove s k with | none => s | some s' => s')
      unfold remove
      by_cases hc : contains s k
      · rw [if_pos hc]
        exact wf_discard s h k
      · rw [if_neg hc]
        exact h
  | pop =>
      show Wf (match pop s with | none => s | some r => r.2)
      cases hp : pop s with
      | none => exact h
      | some r => exact wf_pop s h r.1 r.2 (by rw [hp])
  | clear => exact wf_empty
  | difference_update ls => exact wf_difference_update s h ls
  | intersection_update o => exact wf_intersection_update s o h
  | symmetric_difference_update o => exact wf_symmetric_difference_update s o h

theorem wf_run (init : List α) (ops : List (Op α)) : Wf (run init ops) := by
  unfold run
  suffices hgen : ∀ (s : OrderedSet α), Wf s → Wf (ops.foldl applyOp s) from
    hgen (fromList init) (wf_fromList init)
  induction ops with
  | nil => intro s hs; exact hs
  | cons op t ih =>
      intro s hs
      rw [List.foldl_cons]
      exact ih (applyOp s op) (wf_applyOp s hs op)

theorem mem_of_mem_cons_ne (a e : α) (t : List α) (h : e ∈ a :: t) (hae : a ≠ e) :
    e ∈ t := by
  rcases List.mem_cons.mp h with h1 | h2
  · exact absurd h1.symm hae
  · exact h2

theorem seqIndexOf_lt_length (l : List α) (e : α) (h : e ∈ l) :
    seqIndexOf l e < l.length := by
  induction l with
  | nil => cases h
  | cons a t ih =>
      by_cases hae : a = e
      · rw [seqIndexOf, if_pos hae]
        simp
      · rw [seqIndexOf, if_neg hae, List.length_cons]
        exact Nat.succ_lt_succ (ih (mem_of_mem_cons_ne a e t h hae))

theorem seqIndexOf_append_left (l1 l2 : List α) (e : α) (h : e ∈ l1) :
    seqIndexOf (l1 ++ l2) e = seqIndexOf l1 e := by
  induction l1 with
  | nil => cases h
  | cons a t ih =>
      by_cases hae : a = e
      · rw [List.cons_append, seqIndexOf, if_pos hae, seqIndexOf, if_pos hae]
      · rw [List.cons_append, seqIndexOf, if_neg hae, seqIndexOf, if_neg hae,
          ih (mem_of_mem_cons_ne a e t h hae)]

theorem seqIndexOf_append_right (l1 l2 : List α) (e : α) (h : e ∉ l1) :
    seqIndexOf (l1 ++ l2) e = l1.length + seqIndexOf l2 e := by
  induction l1 with
  | nil =>
      rw [List.nil_append, List.length_nil, Nat.zero_add]
  | cons a t ih =>
      have hae : a ≠ e := fun hh => h (List.mem_cons.mpr (Or.inl hh.symm))
      rw [List.cons_append, seqIndexOf, if_neg hae,
        ih (fun het => h (List.mem_cons_of_mem a het)), List.length_cons]
      omega

theorem lookup_some_mem (s : OrderedSet α) (h : Wf s) (k : α) (i : Nat)
    (hl : dlookup s.map k = some i) : k ∈ s.items ∧ i = seqIndexOf s.items k := by
  by_cases hk : k ∈ s.items
  · rw [h.1, dlookup_withIdx_of_mem _ _ _ hk, Nat.zero_add] at hl
    exact ⟨hk, (Option.some.inj hl).symm⟩
  · rw [h.1, dlookup_withIdx_of_not_mem _ _ _ hk] at hl
    cases hl

/-- C1: after every finite sequence of public operations (construction from an
initial list, `add`, `update`, `discard`, `remove`, `pop`, `clear`, and the
in-place set-algebra updates), every element `e` of the stored sequence has a
`position` entry equal to `e`'s index in the sequence, the keys of `position`
are exactly the elements of the sequence, and the sequence contains no
duplicate elements. -/
theorem C1_invariant_after_every_operation (init : List α) (ops : List (Op α)) :
    Inv (run init ops) :=
  inv_of_wf _ (wf_run init ops)

/-- C5: for a well-formed set, `discard` of an absent key is a no-op; `discard`
of a key stored at index `i` removes the key's slot from the sequence, removes
its `position` entry, and decrements by one the `position` entry of exactly the
elements whose stored index was greater than `i`. -/
theorem C5_discard_spec (s : OrderedSet α) (k : α) (h : Wf s) :
    (contains s k = false → discard s k = s) ∧
    (∀ i, dlookup s.map k = some i →
      (discard s k).items = s.items.eraseIdx i ∧
      dlookup (discard s k).map k = none ∧
      (∀ e j, e ≠ k → dlookup s.map e = some j →
        dlookup (discard s k).map e = some (if i < j then j - 1 else j))) := by
  constructor
  · intro hc
    have hk : k ∉ s.items := by
      intro hmem
      have hcm := (contains_iff_mem s h k).mpr hmem
      rw [hc] at hcm
      cases hcm
    exact discard_of_not_mem s h k hk
  · intro i hi
    obtain ⟨hk, hieq⟩ := lookup_some_mem s h k i hi
    obtain ⟨l1, l2, hdec, hlen, hl1⟩ := seqIndexOf_decomp s.items k hk
    have hl2 : k ∉ l2 := by
      have hnd := h.2
      rw [hdec] at hnd
      have hsub := List.Nodup.sublist (List.sublist_append_right l1 (k :: l2)) hnd
      exact (List.nodup_cons.mp hsub).1
    have herase : s.items.eraseIdx (seqIndexOf s.items k) = l1 ++ l2 := by
      rw [← hlen, hdec, eraseIdx_append_cons]
    have hknotin : k ∉ l1 ++ l2 := by
      rw [List.mem_append]
      rintro (h1 | h2)
      · exact hl1 h1
      · exact hl2 h2
    rw [discard_of_mem s h k hk]
    refine ⟨by rw [hieq], ?_, ?_⟩
    · show dlookup (withIdx (s.items.eraseIdx (seqIndexOf s.items k)) 0) k = none
      rw [herase]
      exact dlookup_withIdx_of_not_mem _ _ _ hknotin
    · intro e j hek hj
      obtain ⟨he, hjeq⟩ := lookup_some_mem s h e j hj
      have hileq : i = l1.length := by rw [hieq, ← hlen]
      show dlookup (withIdx (s.items.eraseIdx (seqIndexOf s.items k)) 0) e
        = some (if i < j then j - 1 else j)
      have hemem : e ∈ l1 ++ l2 := by
        rw [hdec] at he
        rw [List.mem_append]
        rcases List.mem_append.mp he with h1 | h2
        · exact Or.inl h1
        · exact Or.inr (mem_of_mem_cons_ne k e l2 h2 (fun hh => hek hh.symm))
      rw [herase, dlookup_withIdx_of_mem _ _ _ hemem, Nat.zero_add]
      congr 1
      by_cases hel1 : e ∈ l1
      · have e1 : seqIndexOf (l1 ++ l2) e = seqIndexOf l1 e :=
          seqIndexOf_append_left l1 l2 e hel1
        have e2 : j = seqIndexOf l1 e := by
          rw [hjeq, hdec, seqIndexOf_append_left l1 (k :: l2) e hel1]
        have e3 : seqIndexOf l1 e < l1.length := seqIndexOf_lt_length l1 e hel1
        rw [e1, if_neg (by omega)]
        omega
      · have hel2 : e ∈ l2 := by
          rw [hdec] at he
          rcases List.mem_append.mp he with h1 | h2
          · exact absurd h1 hel1
          · exact mem_of_mem_cons_ne k e l2 h2 (fun hh => hek hh.symm)
        have e1 : seqIndexOf (l1 ++ l2) e = l1.length + seqIndexOf l2 e :=
          seqIndexOf_append_right l1 l2 e hel1
        have e2 : j = l1.length + (seqIndexOf l2 e + 1) := by
          rw [hjeq, hdec, seqIndexOf_append_right l1 (k :: l2) e hel1, seqIndexOf,
            if_neg (fun hh => hek hh.symm)]
        rw [e1, if_pos (by omega)]
        omega

/-- C5 witness: discarding `3` from `[1,2,3,4,5]` hits every branch of
`C5_discard_spec` at a concrete well-formed input. -/
theorem C5_discard_spec_witness :
    Wf (fromList [1, 2, 3, 4, 5]) ∧
    dlookup (fromList [1, 2, 3, 4, 5]).map 3 = some 2 ∧
    (discard (fromList [1, 2, 3, 4, 5]) 3).items = [1, 2, 3, 4, 5].eraseIdx 2 ∧
    dlookup (discard (fromList [1, 2, 3, 4, 5]) 3).map 3 = none ∧
    dlookup (discard (fromList [1, 2, 3, 4, 5]) 3).map 4 = some 2 ∧
    dlookup (discard (fromList [1, 2, 3, 4, 5]) 3).map 5 = some 3 ∧
    size (discard (fromList [1, 2, 3, 4, 5]) 3) = 4 := by
  have hw : Wf (fromList [1, 2, 3, 4, 5]) := by decide
  have hmain := (C5_discard_spec (fromList [1, 2, 3, 4, 5]) 3 hw).2 2 (by decide)
  refine ⟨hw, by decide, ?_, hmain.2.1, ?_, ?_, by decide⟩
  · have h1 := hmain.1
    rw [h1]
    decide
  · have h4 := hmain.2.2 4 3 (by decide) (by decide)
    rw [h4]
    decide
  · have h5 := hmain.2.2 5 4 (by decide) (by decide)
    rw [h5]
    decide

/-- C6: `add` is idempotent: an absent key is appended at index equal to the
current length and that index is returned; a second `add` of the same key
returns the same index and leaves the whole state (hence the sequence and the
length) unchanged. -/
theorem C6_add_idempotent (s : OrderedSet α) (k : α) :
    (contains s k = false →
      (add s k).1 = s.items.length ∧ (add s k).2.items = s.items ++ [k]) ∧
    (add (add s k).2 k).1 = (add s k).1 ∧ (add (add s k).2 k).2 = (add s k).2 := by
  cases hl : dlookup s.map k with
  | some i =>
      have ha : add s k = (i, s) := add_eq_of_lookup_some s k i hl
      constructor
      · intro hfalse
        rw [contains, hl] at hfalse
        cases hfalse
      · rw [ha]
        show (add s k).1 = i ∧ (add s k).2 = s
        rw [ha]
        exact ⟨rfl, rfl⟩
  | none =>
      have ha := add_eq_of_lookup_none s k hl
      have ha2 : add (⟨s.items ++ [k], s.map ++ [(k, s.items.length)]⟩ : OrderedSet α) k
          = (s.items.length, ⟨s.items ++ [k], s.map ++ [(k, s.items.length)]⟩) := by
        apply add_eq_of_lookup_some
        show dlookup (s.map ++ [(k, s.items.length)]) k = some s.items.length
        rw [dlookup_append_of_none _ _ _ hl, dlookup, if_pos rfl]
      constructor
      · intro _
        rw [ha]
        exact ⟨rfl, rfl⟩
      · rw [ha]
        show (add (⟨s.items ++ [k], s.map ++ [(k, s.items.length)]⟩ : OrderedSet α) k).1
            = s.items.length ∧
          (add (⟨s.items ++ [k], s.map ++ [(k, s.items.length)]⟩ : OrderedSet α) k).2
            = ⟨s.items ++ [k], s.map ++ [(k, s.items.length)]⟩
        rw [ha2]
        exact ⟨rfl, rfl⟩

/-- C6 witness: adding the absent key `3` to `[1,2]` appends it at index 2, and
a second `add 3` is a no-op returning the same index. -/
theorem C6_add_idempotent_witness :
    contains (fromList [1, 2]) 3 = false ∧
    ((contains (fromList [1, 2]) 3 = false →
      (add (fromList [1, 2]) 3).1 = (fromList [1, 2]).items.length ∧
      (add (fromList [1, 2]) 3).2.items = (fromList [1, 2]).items ++ [3]) ∧
     (add (add (fromList [1, 2]) 3).2 3).1 = (add (fromList [1, 2]) 3).1 ∧
     (add (add (fromList [1, 2]) 3).2 3).2 = (add (fromList [1, 2]) 3).2) :=
  ⟨by decide, C6_add_idempotent (fromList [1, 2]) 3⟩

/-- C9: `pop` fails (raises `KeyError`, modelled as `none`) exactly when the set
is empty; otherwise it returns the element at the last position and removes
exactly that element, leaving every other element and its index unchanged. -/
theorem C9_pop_spec (s : OrderedSet α) (h : Wf s) :
    (pop s = none ↔ s.items = []) ∧
    (∀ x s', pop s = some (x, s') →
      s.items.getLast? = some x ∧
      s'.items = s.items.dropLast ∧
      dlookup s'.map x = none ∧
      (∀ e, e ≠ x → dlookup s'.map e = dlookup s.map e)) := by
  rcases List.eq_nil_or_concat s.items with hnil | ⟨l', a, hconc⟩
  · constructor
    · constructor
      · intro _
        exact hnil
      · intro _
        unfold pop
        rw [hnil]
        rfl
    · intro x s' hp
      unfold pop at hp
      rw [hnil] at hp
      cases hp
  · rw [List.concat_eq_append] at hconc
    have hpc := pop_concat s h l' a hconc
    have hna : a ∉ l' := by
      have hnd := h.2
      rw [hconc, List.nodup_append] at hnd
      exact fun hmem => hnd.2.2 hmem (by simp)
    constructor
    · constructor
      · intro hnone
        rw [hpc] at hnone
        cases hnone
      · intro hempty
        rw [hempty] at hconc
        cases l' <;> cases hconc
    · intro x s' hp
      rw [hpc] at hp
      have h2 : (a, (⟨l', withIdx l' 0⟩ : OrderedSet α)) = (x, s') := Option.some.inj hp
      have hax : a = x := congrArg Prod.fst h2
      have hs' : s' = ⟨l', withIdx l' 0⟩ := (congrArg Prod.snd h2).symm
      subst hax
      subst hs'
      refine ⟨by rw [hconc, List.getLast?_concat], by rw [hconc, List.dropLast_concat], ?_, ?_⟩
      · exact dlookup_withIdx_of_not_mem l' 0 a hna
      · intro e hea
        show dlookup (withIdx l' 0) e = dlookup s.map e
        rw [h.1, hconc, withIdx_append, Nat.zero_add]
        have : dlookup (withIdx [a] l'.length) e = none := by
          rw [withIdx, withIdx, dlookup, if_neg (fun hh => hea hh.symm)]
          rfl
        by_cases hel : e ∈ l'
        · rw [dlookup_append_of_some _ _ _ _ (dlookup_withIdx_of_mem l' 0 e hel)]
          rw [dlookup_withIdx_of_mem l' 0 e hel]
        · rw [dlookup_append_of_none _ _ _ (dlookup_withIdx_of_not_mem l' 0 e hel)]
          rw [dlookup_withIdx_of_not_mem l' 0 e hel, this]

/-- C9 witness: `pop` on `[1,2,3]` returns `3`, leaves `[1,2]` with the indices
of `1` and `2` unchanged, and `pop` on the empty set fails. -/
theorem C9_pop_spec_witness :
    Wf (fromList [1, 2, 3]) ∧
    pop (fromList [1, 2, 3]) = some (3, ⟨[1, 2], [(1, 0), (2, 1)]⟩) ∧
    ((fromList [1, 2, 3]).items.getLast? = some 3 ∧
     ([(1 : Nat), 2] : List Nat) = (fromList [1, 2, 3]).items.dropLast ∧
     dlookup [((1 : Nat), 0), (2, 1)] 3 = none ∧
     (∀ e, e ≠ 3 → dlookup [((1 : Nat), 0), (2, 1)] e = dlookup (fromList [1, 2, 3]).map e)) ∧
    pop (fromList ([] : List Nat)) = none := by
  have hw : Wf (fromList [1, 2, 3]) := by decide
  have hp : pop (fromList [1, 2, 3]) = some (3, ⟨[1, 2], [(1, 0), (2, 1)]⟩) := by decide
  have hmain := (C9_pop_spec (fromList [1, 2, 3]) hw).2 3 ⟨[1, 2], [(1, 0), (2, 1)]⟩ hp
  exact ⟨hw, hp, ⟨hmain.1, hmain.2.1.symm ▸ (by decide), hmain.2.2.1, hmain.2.2.2⟩, by decide⟩

/-- C10: `__eq__` with an argument that is neither an `OrderedSet` nor
convertible by `set(...)` returns `False` instead of raising (the `TypeError`
from the conversion is caught). -/
theorem C10_eq_non_iterable_false (a : OrderedSet α) :
    pyEq a EqOther.nonIterable = false :=
  rfl

/-- C7: equality is asymmetric by collection kind: two `OrderedSet`s compare
equal iff they have equal length and equal order-sensitive sequences, while an
`OrderedSet` and a plain set-like collection compare equal iff they have the
same elements regardless of order; in particular `[1,2]` is unequal to the
`OrderedSet` `[2,1]` but equal to the plain set `{2,1}`. -/
theorem C7_eq_asymmetry (a b : OrderedSet α) (l : List α) :
    (pyEq a (EqOther.oset b) = true ↔
      a.items.length = b.items.length ∧ a.items = b.items) ∧
    (pyEq a (EqOther.iterable l) = true ↔ (∀ x, x ∈ a.items ↔ x ∈ l)) := by
  constructor
  · show (decide (a.items.length = b.items.length) && decide (a.items = b.items)) = true ↔ _
    rw [Bool.and_eq_true, decide_eq_true_iff, decide_eq_true_iff]
  · show seteq a.items l = true ↔ _
    rw [seteq, Bool.and_eq_true, List.all_eq_true, List.all_eq_true]
    constructor
    · intro ⟨h1, h2⟩ x
      constructor
      · intro hx
        have := h1 x hx
        rwa [pymem, decide_eq_true_iff] at this
      · intro hx
        have := h2 x hx
        rwa [pymem, decide_eq_true_iff] at this
    · intro hiff
      constructor
      · intro x hx
        rw [pymem, decide_eq_true_iff]
        exact (hiff x).mp hx
      · intro x hx
        rw [pymem, decide_eq_true_iff]
        exact (hiff x).mpr hx

/-- C7 witness: the claim's concrete instances, obtained from `C7_eq_asymmetry`
at `OrderedSet([1,2])`, `OrderedSet([2,1])` and the plain set `{2,1}`. -/
theorem C7_eq_asymmetry_witness :
    pyEq (fromList [1, 2]) (EqOther.oset (fromList [2, 1])) = false ∧
    pyEq (fromList [1, 2]) (EqOther.iterable [2, 1]) = true := by
  have hmain := C7_eq_asymmetry (fromList [1, 2]) (fromList [2, 1]) [2, 1]
  constructor
  · by_contra hne
    have htrue : pyEq (fromList [1, 2]) (EqOther.oset (fromList [2, 1])) = true := by
      cases hb : pyEq (fromList [1, 2]) (EqOther.oset (fromList [2, 1]))
      · exact absurd hb hne
      · rfl
    have := (hmain.1.mp htrue).2
    have hfalse : (fromList [1, 2]).items ≠ (fromList [2, 1]).items := by decide
    exact hfalse this
  · apply hmain.2.mpr
    intro x
    have hfl : (fromList [1, 2]).items = [1, 2] := by decide
    rw [hfl]
    simp only [List.mem_cons, List.not_mem_nil]
    tauto

/-- C8: pickling round-trips: deserializing the serialized form of a
well-formed container reproduces its element list; the empty container
serializes to the explicit marker `(None,)`, and deserializing that marker
reconstructs an empty container. -/
theorem C8_pickle_roundtrip (c : OrderedSet α) (h : Wf c) :
    (setstate (getstate c)).items = c.items ∧
    getstate (⟨[], []⟩ : OrderedSet α) = PyState.emptyMarker ∧
    (setstate (PyState.emptyMarker : PyState α)).items = [] := by
  refine ⟨?_, rfl, rfl⟩
  unfold getstate
  by_cases hlen : c.items.length = 0
  · rw [if_pos hlen]
    show (fromList ([] : List α)).items = c.items
    rw [List.eq_nil_of_length_eq_zero hlen]
    rfl
  · rw [if_neg hlen]
    show (fromList c.items).items = c.items
    rw [fromList_items, keepFirst_eq_self c.items h.2]

/-- C8 witness: the round-trip at the concrete container `[1,2,3]` and at the
empty container. -/
theorem C8_pickle_roundtrip_witness :
    Wf (fromList [1, 2, 3]) ∧
    ((setstate (getstate (fromList [1, 2, 3]))).items = (fromList [1, 2, 3]).items ∧
     getstate (⟨[], []⟩ : OrderedSet Nat) = PyState.emptyMarker ∧
     (setstate (PyState.emptyMarker : PyState Nat)).items = []) ∧
    (setstate (getstate (fromList ([] : List Nat)))).items = [] :=
  ⟨by decide, C8_pickle_roundtrip (fromList [1, 2, 3]) (by decide), by decide⟩

/-- C4: `union` returns a new container whose element order is the order of
first appearance across the concatenation of `self`'s sequence followed by each
other source in argument order, later duplicates dropped; in particular
`union([3,1,4,1,5], [1,3], [2,0])` yields `[3,1,4,5,2,0]`. -/
theorem C4_union_first_appearance (s : OrderedSet α) (sets : List (List α)) :
    (union s sets).items = keepFirst (s.items ++ sets.flatten) ∧
    (union (fromList [3, 1, 4, 1, 5]) [[1, 3], [2, 0]]).items = [3, 1, 4, 5, 2, 0] :=
  ⟨by rw [union, fromList_items], by decide⟩

/-- C2 (code bug): at `self = OrderedSet([1,2])`, `others = ([1], [2])` the
code's `difference` filters by the *intersection* of the others (which is
empty) and returns `[1,2]`, while filtering by the union of the others — what
the spec and the method's own docstring describe — returns `[]`. -/
theorem C2_difference_bug :
    (difference (fromList [1, 2]) [[1], [2]]).items = [1, 2] ∧
    (differenceSpec (fromList [1, 2]) [[1], [2]]).items = [] := by
  decide

theorem difference_single_items (s : OrderedSet α) (o : List α) (hn : s.items.Nodup) :
    (difference s [o]).items = s.items.filter (fun x => !(pymem o x)) := by
  rw [difference, fromList_items]
  have hfe : s.items.filter (fun item => !(([o] : List (List α)).all (fun oo => pymem oo item)))
      = s.items.filter (fun x => !(pymem o x)) := by
    apply List.filter_congr
    intro x _
    simp [List.all_cons]
  rw [hfe, keepFirst_eq_self _ (List.Nodup.filter _ hn)]

theorem difference_update_single_items (s : OrderedSet α) (h : Wf s) (B : List α) :
    Wf (difference_update s [B]) ∧
    (difference_update s [B]).items = s.items.filter (fun x => decide (x ∉ B)) := by
  have hfl : ([B] : List (List α)).flatten = B := by simp
  rw [difference_update, hfl]
  exact discardAll_spec B s h

theorem update_items (s : OrderedSet α) (h : Wf s) (l : List α) :
    (update s l).2.items = s.items ++ keepFirstAux s.items l := by
  rw [update_snd]
  exact (addAll_spec l s h).2

theorem eq_of_wf_of_items_eq (s1 s2 : OrderedSet α) (h1 : Wf s1) (h2 : Wf s2)
    (h : s1.items = s2.items) : s1 = s2 := by
  have hm : s1.map = s2.map := by
    rw [h1.1, h2.1, h]
  calc s1 = ⟨s1.items, s1.map⟩ := rfl
    _ = ⟨s2.items, s2.map⟩ := by rw [h, hm]
    _ = s2 := rfl

theorem pymem_eq_decide_not (A B : List α) :
    ∀ x ∈ A, decide (x ∉ B) = !(pymem B x) := by
  intro x _
  by_cases hx : x ∈ B <;> simp [pymem, hx]

/-- C3: `symmetric_difference_update(other)` leaves `self` equal, as an ordered
container, to `old_self.symmetric_difference(other)` computed from the
pre-mutation value of `self`: it discards all of `other`'s elements from `self`
and then adds back `other - self`, computed before `self` is mutated. -/
theorem C3_symmetric_difference_update_eq (s other : OrderedSet α)
    (hs : Wf s) (ho : Wf other) :
    symmetric_difference_update s other = symmetric_difference s other := by
  have hflB : (fromList other.items).items = other.items := by
    rw [fromList_items, keepFirst_eq_self _ ho.2]
  have hflA : (fromList s.items).items = s.items := by
    rw [fromList_items, keepFirst_eq_self _ hs.2]
  have hdiff2 : (difference (fromList other.items) [s.items]).items
      = other.items.filter (fun x => !(pymem s.items x)) := by
    rw [difference_single_items _ _ (wf_fromList _).2, hflB]
  have hdiff1 : (difference (fromList s.items) [other.items]).items
      = s.items.filter (fun x => !(pymem other.items x)) := by
    rw [difference_single_items _ _ (wf_fromList _).2, hflA]
  obtain ⟨hwf1, hitems1⟩ := difference_update_single_items s hs other.items
  have hD2nodup : (difference (fromList other.items) [s.items]).items.Nodup := by
    rw [hdiff2]
    exact List.Nodup.filter _ ho.2
  have hD2notinA : ∀ x ∈ (difference (fromList other.items) [s.items]).items,
      x ∉ s.items := by
    intro x hx
    rw [hdiff2] at hx
    obtain ⟨-, hpx⟩ := List.mem_filter.mp hx
    intro hxa
    rw [pymem] at hpx
    simp [hxa] at hpx
  apply eq_of_wf_of_items_eq
  · exact wf_symmetric_difference_update s other hs
  · show Wf (union (difference (fromList s.items) [other.items])
      [(difference (fromList other.items) [s.items]).items])
    exact wf_fromList _
  · show (update (difference_update s [other.items])
        (difference (fromList other.items) [s.items]).items).2.items
      = (symmetric_difference s other).items
    rw [update_items _ hwf1, hitems1]
    have hdisj : ∀ x ∈ (difference (fromList other.items) [s.items]).items,
        x ∉ s.items.filter (fun x => decide (x ∉ other.items)) := by
      intro x hx hmem
      exact hD2notinA x hx (List.mem_filter.mp hmem).1
    rw [keepFirstAux_eq_self _ _ hD2nodup hdisj]
    show _ = (union (difference (fromList s.items) [other.items])
      [(difference (fromList other.items) [s.items]).items]).items
    rw [union, fromList_items]
    have hfl : ([(difference (fromList other.items) [s.items]).items]
        : List (List α)).flatten = (difference (fromList other.items) [s.items]).items := by
      simp
    rw [hfl]
    have hnodupcat : ((difference (fromList s.items) [other.items]).items
        ++ (difference (fromList other.items) [s.items]).items).Nodup := by
      rw [List.nodup_append]
      refine ⟨by rw [hdiff1]; exact List.Nodup.filter _ hs.2, hD2nodup, ?_⟩
      intro x hx1 hx2
      have hxa : x ∈ s.items := by
        rw [hdiff1] at hx1
        exact (List.mem_filter.mp hx1).1
      exact hD2notinA x hx2 hxa
    rw [keepFirst_eq_self _ hnodupcat, hdiff1]
    congr 1
    exact List.filter_congr (pymem_eq_decide_not s.items other.items)

/-- C3 witness: the docstring example `[1,4,3,5,7]` against `[9,7,1,3,2]`,
where both the in-place update and the pure operation produce `[4,5,9,2]`. -/
theorem C3_symmetric_difference_update_eq_witness :
    Wf (fromList [1, 4, 3, 5, 7]) ∧ Wf (fromList [9, 7, 1, 3, 2]) ∧
    symmetric_difference_update (fromList [1, 4, 3, 5, 7]) (fromList [9, 7, 1, 3, 2])
      = symmetric_difference (fromList [1, 4, 3, 5, 7]) (fromList [9, 7, 1, 3, 2]) ∧
    (symmetric_difference_update (fromList [1, 4, 3, 5, 7])
      (fromList [9, 7, 1, 3, 2])).items = [4, 5, 9, 2] :=
  ⟨by decide, by decide,
    C3_symmetric_difference_update_eq (fromList [1, 4, 3, 5, 7])
      (fromList [9, 7, 1, 3, 2]) (by decide) (by decide), by decide⟩

end OrderedSet

end OrdSet
